import Mathlib

/-!
Verification of `ProcessImpl_md.c` helpers (string-array sizing/copying and
PATH splitting) and of the spec-level model of the C2 `PhaseOutput` phase
(`output.hpp`): branch shortening, oop-map building, object-value dedup,
constant-table interning, scratch emission, buffer-retry policy and bundling.

Strings are modelled as `List Char` (the characters before the terminating
NUL); C string arrays as `List (List Char)`; a possibly-NULL pointer as
`Option`; a byte buffer as `Nat → Char` with explicit index arithmetic.
-/

/-- Byte-wise `memcpy`: write the bytes `bs` into `buf` starting at `pos`. -/
def writeBytes : (Nat → Char) → Nat → List Char → (Nat → Char)
  | buf, _, [] => buf
  | buf, pos, b :: bs => writeBytes (fun i => if i = pos then b else buf i) (pos + 1) bs

/-- Read `len` bytes of `buf` starting at `pos`. -/
def readBytes (buf : Nat → Char) (pos len : Nat) : List Char :=
  (List.range len).map (fun i => buf (pos + i))

/-- The NUL byte terminating every C string. -/
def nulChar : Char := Char.ofNat 0

/-- The in-memory image of a C string: its characters plus the trailing NUL. -/
def cstr (s : List Char) : List Char := s ++ [nulChar]

/-- Loop body of `arraysize` (ProcessImpl_md.c lines 454-456): count the
elements and sum `strlen(*a)+1` over the array. -/
def sizeLoop : List (List Char) → Nat × Nat
  | [] => (0, 0)
  | s :: rest =>
    let r := sizeLoop rest
    (r.1 + 1, r.2 + (s.length + 1))

/-- `arraysize` (ProcessImpl_md.c lines 444-459): `*nelems` counts the
elements including the NULL terminator, `*nbytes` sums `strlen+1`; a NULL
`arg` yields `(0, 0)`. -/
def arraysize (arg : Option (List (List Char))) : Nat × Nat :=
  match arg with
  | none => (0, 0)
  | some a =>
    let r := sizeLoop a
    (r.1 + 1, r.2)

/-- Loop of `copystrings` (ProcessImpl_md.c lines 472-477): `memcpy` each
string with its NUL at `p`, advancing `p` and `count` by `strlen+1`. -/
def copyLoop : (Nat → Char) → Nat → Nat → List (List Char) → (Nat → Char) × Nat
  | buf, _, count, [] => (buf, count)
  | buf, p, count, s :: rest =>
    copyLoop (writeBytes buf p (cstr s)) (p + (s.length + 1)) (count + (s.length + 1)) rest

/-- `copystrings` (ProcessImpl_md.c lines 464-479): copy the strings of `arg`
into `buf` at `offset`, returning the updated buffer and
`offset + count`; a NULL `arg` returns `offset` with the buffer untouched. -/
def copystrings (buf : Nat → Char) (offset : Nat) (arg : Option (List (List Char))) :
    (Nat → Char) × Nat :=
  match arg with
  | none => (buf, offset)
  | some a =>
    let res := copyLoop buf offset 0 a
    (res.1, offset + res.2)

/-- The concatenated image `copystrings` is expected to lay down. -/
def cstrConcat (arg : Option (List (List Char))) : List Char :=
  match arg with
  | none => []
  | some a => (a.map cstr).flatten

/-- `defaultPath` (ProcessImpl_md.c lines 229-233). -/
def defaultPath : List Char := (":/bin:/usr/bin").toList

/-- `countOccurrences` (ProcessImpl_md.c lines 242-249). -/
def countOccurrences : List Char → Char → Nat
  | [], _ => 0
  | x :: s, c => (if x = c then 1 else 0) + countOccurrences s c

/-- `strcspn(p, ":")`: length of the initial segment of `p` free of `:`. -/
def strcspnColon : List Char → Nat
  | [] => 0
  | c :: s => if c = ':' then 0 else strcspnColon s + 1

/-- Split loop of `effectivePathv` (ProcessImpl_md.c lines 267-272): `count`
iterations; each takes the component up to the next `:` (an empty component
becomes `"."`) and advances past the separator. -/
def pathvLoop : Nat → List Char → List (List Char)
  | 0, _ => []
  | n + 1, p =>
    let k := strcspnColon p
    (if k = 0 then ([ '.' ]) else p.take k) :: pathvLoop n (p.drop (k + 1))

/-- `effectivePathv` (ProcessImpl_md.c lines 251-275) composed with
`effectivePath` (lines 235-240): split the PATH value (or the default when
the environment variable is unset) into `countOccurrences path c + 1`
components. The trailing NULL slot of the C array is the end of the list. -/
def effectivePathv (pathEnv : Option (List Char)) : List (List Char) :=
  let path := match pathEnv with
    | some s => s
    | none => defaultPath
  pathvLoop (countOccurrences path ':' + 1) path

/-- Splitting a string at every `:` in order, as the claim describes it
(spec-side definition used to compare with the code's loop). -/
def splitAtColons : List Char → List (List Char)
  | [] => [[]]
  | c :: s =>
    if c = ':' then [] :: splitAtColons s
    else
      match splitAtColons s with
      | [] => [[ c ]]
      | comp :: rest => (c :: comp) :: rest

/-- Replacement of an empty PATH component by `"."`. -/
def dotIfEmpty (comp : List Char) : List Char := if comp = [] then [ '.' ] else comp

/-- Modelled from the spec: a live value at a safepoint (output.cpp's
`FillLocArray`/`BuildOopMaps` bodies are not in the sources, only their
declarations in output.hpp). `physLoc = none` models a value present only
for deoptimization reconstruction (a field of a scalar-replaced object with
no physical location). -/
structure LiveValue where
  isRef : Bool
  physLoc : Option Nat
deriving DecidableEq

/-- Modelled from the spec: the root-map entries of one safepoint are the
physical locations of its live values that hold references; values without
a physical location contribute nothing. -/
def rootMapFor (vals : List LiveValue) : List Nat :=
  vals.filterMap (fun v => if v.isRef then v.physLoc else none)

/-- Modelled from the spec: `PhaseOutput::BuildOopMaps` builds one oop map
per safepoint (`_oop_map_set`, one for each safepoint location). -/
def BuildOopMaps (sps : List (List LiveValue)) : List (List Nat) :=
  sps.map rootMapFor

/-- Modelled from the spec: one pass of `PhaseOutput::shorten_branches`.
Branch state is `true` when the branch has been flipped to its short form;
`shortOK st i` says branch `i`'s target is in short range under the offsets
determined by state `st`. A pass only flips eligible long branches to
short, never the reverse. -/
def shortenPass {b : Nat} (shortOK : (Fin b → Bool) → Fin b → Bool)
    (st : Fin b → Bool) : Fin b → Bool :=
  fun i => st i || shortOK st i

/-- Modelled from the spec: the initial state of branch fixup — every
branch at its long (worst-case) encoding. -/
def allLong {b : Nat} : Fin b → Bool := fun _ => false

/-- Modelled from the spec: the set of branches currently short. -/
def shortSet {b : Nat} (st : Fin b → Bool) : Finset (Fin b) :=
  Finset.univ.filter (fun i => st i = true)

/-- Modelled from the spec: the running-sum recomputation of `blk_starts`
performed after each `shorten_branches` pass and checked by `fill_buffer`. -/
def startsLoop : Nat → List Nat → List Nat
  | _, [] => []
  | cur, s :: rest => cur :: startsLoop (cur + s) rest

/-- Modelled from the spec: block start offsets as running sums of the
preceding block sizes. -/
def computeStarts (sizes : List Nat) : List Nat := startsLoop 0 sizes

/-- Modelled from the spec: a machine instruction, reduced to its final
(post-fixpoint) encoding bytes. -/
structure MInstr where
  enc : List Nat
deriving DecidableEq

/-- Counted size of an instruction after branch fixup has converged. -/
def instrSize (n : MInstr) : Nat := n.enc.length

/-- Counted size of a block: sum of its instructions' counted sizes. -/
def blockSize (blk : List MInstr) : Nat := (blk.map instrSize).sum

/-- Bytes emitted for one block: its instructions' encodings in order. -/
def emitBlock (blk : List MInstr) : List Nat := (blk.map MInstr.enc).flatten

/-- Modelled from the spec: `PhaseOutput::fill_buffer` writes the blocks'
encodings to the code buffer in layout order. -/
def fill_buffer (blks : List (List MInstr)) : List Nat :=
  (blks.map emitBlock).flatten

/-- Modelled from the spec: the `blk_starts` array over a unit's blocks. -/
def blk_starts (blks : List (List MInstr)) : List Nat :=
  computeStarts (blks.map blockSize)

/-- Modelled from the spec: an `ObjectValue` descriptor — an object id from
the optimizer's identity domain plus its serialized payload. -/
structure OV where
  id : Nat
  payload : Nat
deriving DecidableEq

/-- `PhaseOutput::sv_for_node_id` (output.hpp lines 136-137): if `objs`
contains an ObjectValue whose id is `id`, returns it, else null. Modelled
from the spec: the body iterates the array and returns the first match. -/
def sv_for_node_id : List OV → Nat → Option OV
  | [], _ => none
  | ov :: rest, i => if ov.id = i then some ov else sv_for_node_id rest i

/-- Modelled from the spec: `PhaseOutput::set_sv_for_object_node` registers
a freshly built descriptor in the unit's registry. -/
def set_sv_for_object_node (objs : List OV) (sv : OV) : List OV := objs ++ [sv]

/-- Modelled from the spec: `FillLocArray`'s handling of one object
reference `(id, payload)`: reuse the registered descriptor when the id is
already present, otherwise construct and register it. -/
def fillRef (objs : List OV) (r : Nat × Nat) : List OV :=
  match sv_for_node_id objs r.1 with
  | some _ => objs
  | none => set_sv_for_object_node objs ⟨r.1, r.2⟩

/-- Modelled from the spec: the registry after processing a unit's object
references (across all safepoints, frames and fields) in order. -/
def registryAfter (refs : List (Nat × Nat)) : List OV := refs.foldl fillRef []

/-- Round `x` up to a multiple of `a` (type-mandated alignment). -/
def alignUp (x a : Nat) : Nat := ((x + a - 1) / a) * a

/-- First index of an entry equal to `(v, t)` in the pool's entry list. -/
def findIdx2 : List (Int × Nat) → Int → Nat → Option Nat
  | [], _, _ => none
  | e :: rest, v, t => if e = (v, t) then some 0 else (findIdx2 rest v t).map (· + 1)

/-- Modelled from the spec: `ConstantTable` interning (`_constant_table`):
return the existing entry's index when an equal `(value, type)` pair was
already interned, otherwise append a new entry. -/
def intern (es : List (Int × Nat)) (v : Int) (t : Nat) : List (Int × Nat) × Nat :=
  match findIdx2 es v t with
  | some i => (es, i)
  | none => (es ++ [(v, t)], es.length)

/-- Modelled from the spec: offset assignment at pool close — each entry is
placed at the current cursor aligned up by its type's alignment `al`, and
the cursor advances by the type's size `sz`. -/
def offLoop (al sz : Nat → Nat) : Nat → List (Int × Nat) → List Nat
  | _, [] => []
  | cur, e :: rest =>
    alignUp cur (al e.2) :: offLoop al sz (alignUp cur (al e.2) + sz e.2) rest

/-- Modelled from the spec: the offsets assigned when the pool is closed. -/
def closeOffsets (al sz : Nat → Nat) (es : List (Int × Nat)) : List Nat :=
  offLoop al sz 0 es

/-- Pool contents after interning a whole sequence of pairs, from empty. -/
def internAll (ps : List (Int × Nat)) : List (Int × Nat) :=
  ps.foldl (fun es p => (intern es p.1 p.2).1) []

/-- Modelled from the spec: the shared state of one compilation unit — the
tables, pools, cursors and offsets that a trial emission must not touch
(`_handler_table`, `_inc_table`, `_oop_map_set`, `_constant_table`, the
code buffer and `_code_offsets`). -/
structure SharedState where
  handlerTable : List (Nat × Nat)
  incTable : List (Nat × Nat)
  oopMaps : List (List Nat)
  constPool : List (Int × Nat)
  codeBytes : List Nat
  codeOffset : Nat
  frameComplete : Option Nat
deriving DecidableEq

/-- Modelled from the spec: the full `PhaseOutput` state — the shared state
plus the scratch blob (`_scratch_buffer_blob`) and the
`_in_scratch_emit_size` flag. -/
structure OutState where
  shared : SharedState
  scratchBytes : List Nat
  inScratchEmitSize : Bool
deriving DecidableEq

/-- An instruction as the emitter sees it: its encoding bytes and whether
emitting it marks the frame complete. -/
structure EmitInstr where
  bytes : List Nat
  marksFrame : Bool
deriving DecidableEq

/-- `PhaseOutput::set_frame_complete` (output.hpp line 164): the offset is
recorded only when not inside `scratch_emit_size`. -/
def set_frame_complete (st : OutState) (off : Nat) : OutState :=
  if st.inScratchEmitSize then st
  else { st with shared := { st.shared with frameComplete := some off } }

/-- The emission cursor of the buffer currently being written. -/
def currentOffset (st : OutState) : Nat :=
  if st.inScratchEmitSize then st.scratchBytes.length else st.shared.codeOffset

/-- Modelled from the spec: emitting one instruction appends its encoding
to the active buffer (the scratch blob when `_in_scratch_emit_size` is set,
the real code buffer otherwise) and may mark the frame complete. -/
def emitNode (st : OutState) (n : EmitInstr) : OutState :=
  let st1 :=
    if st.inScratchEmitSize then { st with scratchBytes := st.scratchBytes ++ n.bytes }
    else { st with shared := { st.shared with
      codeBytes := st.shared.codeBytes ++ n.bytes,
      codeOffset := st.shared.codeOffset + n.bytes.length } }
  if n.marksFrame then set_frame_complete st1 (currentOffset st1) else st1

/-- Modelled from the spec: `PhaseOutput::scratch_emit_size` (output.hpp
lines 178-181) — emit `n` into the scratch blob with
`_in_scratch_emit_size` set, restore the flag, and report the size. -/
def scratch_emit_size (st : OutState) (n : EmitInstr) : OutState × Nat :=
  let st1 : OutState := { st with inScratchEmitSize := true, scratchBytes := [] }
  let st2 := emitNode st1 n
  ({ st2 with inScratchEmitSize := st.inScratchEmitSize }, st2.scratchBytes.length)

/-- The effect of a real (non-scratch) emission on the shared state alone:
append the bytes, advance the cursor, and record the frame-complete offset
when the instruction marks it. -/
def emitShared (sh : SharedState) (n : EmitInstr) : SharedState :=
  let sh1 : SharedState := { sh with
    codeBytes := sh.codeBytes ++ n.bytes,
    codeOffset := sh.codeOffset + n.bytes.length }
  if n.marksFrame then { sh1 with frameComplete := some sh1.codeOffset } else sh1

/-- An emission step: a real emission or a trial size measurement. -/
inductive EmitOp where
  | real (n : EmitInstr)
  | trial (n : EmitInstr)

/-- Whether a step is a real emission. -/
def isReal : EmitOp → Bool
  | .real _ => true
  | .trial _ => false

/-- Run one emission step. -/
def runOp (st : OutState) : EmitOp → OutState
  | .real n => emitNode st n
  | .trial n => (scratch_emit_size st n).1

/-- Run a sequence of interleaved real and trial emission steps. -/
def runOps (st : OutState) (ops : List EmitOp) : OutState := ops.foldl runOp st

/-- Outcome of the Output Driver for one compilation unit. -/
inductive DriverResult where
  | installed (size : Nat)
  | bailout
deriving DecidableEq

/-- Modelled from the spec: `PhaseOutput::Output`'s buffer policy with
`estimate_buffer_size`: emit against the estimate; on overflow retry once
with the enlarged estimate `est2`; on a second overflow bail out. Returns
the outcome and the number of emission attempts. -/
def outputDriver (actual est est2 : Nat) : DriverResult × Nat :=
  if actual ≤ est then (.installed actual, 1)
  else if actual ≤ est2 then (.installed actual, 2)
  else (.bailout, 2)

/-- Bundle metadata attached one-to-one to an instruction. -/
structure BundleInfo where
  startsBundle : Bool
  bundleIndex : Nat
  usesDelaySlot : Bool
deriving DecidableEq

/-- An instruction as the bundler sees it: its resource-slot demand and
whether it sits in a delay slot. -/
structure SchedInstr where
  resUse : Nat
  isDelayed : Bool
deriving DecidableEq

/-- Modelled from the spec: the greedy reverse-program-order packing walk of
`ScheduleAndBundle` — fill the current bundle while the issue `width`
allows, else open a new bundle; each instruction is only annotated. -/
def bundleWalk (width : Nat) : List SchedInstr → Nat → Nat → List (SchedInstr × BundleInfo)
  | [], _, _ => []
  | n :: rest, fill, idx =>
    if fill + n.resUse ≤ width then
      (n, ⟨false, idx, n.isDelayed⟩) :: bundleWalk width rest (fill + n.resUse) idx
    else
      (n, ⟨true, idx + 1, n.isDelayed⟩) :: bundleWalk width rest n.resUse (idx + 1)

/-- Modelled from the spec: `PhaseOutput::ScheduleAndBundle` walks the
block's instruction sequence in backwards order (output.hpp lines 155-157)
attaching bundle metadata, and leaves the sequence itself unchanged. -/
def ScheduleAndBundle (width : Nat) (blk : List SchedInstr) : List (SchedInstr × BundleInfo) :=
  (bundleWalk width blk.reverse 0 0).reverse

/-! ## Buffer lemmas for `copystrings` / `arraysize` -/

theorem cstr_length (s : List Char) : (cstr s).length = s.length + 1 := by
  simp [cstr]

theorem writeBytes_lt (bs : List Char) :
    ∀ buf pos i, i < pos → writeBytes buf pos bs i = buf i := by
  induction bs with
  | nil => intro buf pos i _; rfl
  | cons b bs ih =>
    intro buf pos i h
    show writeBytes (fun j => if j = pos then b else buf j) (pos + 1) bs i = buf i
    rw [ih _ _ _ (by omega)]
    simp [Nat.ne_of_lt h]

theorem readBytes_succ (buf : Nat → Char) (pos n : Nat) :
    readBytes buf pos (n + 1) = buf pos :: readBytes buf (pos + 1) n := by
  simp only [readBytes, List.range_succ_eq_map, List.map_cons, List.map_map, Nat.add_zero]
  congr 1
  apply List.map_congr_left
  intro i _
  show buf (pos + (i + 1)) = buf (pos + 1 + i)
  congr 1
  omega

theorem readBytes_add (buf : Nat → Char) (m : Nat) :
    ∀ pos n, readBytes buf pos (m + n) = readBytes buf pos m ++ readBytes buf (pos + m) n := by
  induction m with
  | zero => intro pos n; simp [readBytes]
  | succ m ih =>
    intro pos n
    have h1 : m + 1 + n = (m + n) + 1 := by omega
    rw [h1, readBytes_succ, readBytes_succ, ih, List.cons_append]
    have h2 : pos + 1 + m = pos + (m + 1) := by omega
    rw [h2]

theorem readBytes_congr (buf1 buf2 : Nat → Char) (pos len : Nat)
    (h : ∀ i, i < len → buf1 (pos + i) = buf2 (pos + i)) :
    readBytes buf1 pos len = readBytes buf2 pos len := by
  simp only [readBytes]
  apply List.map_congr_left
  intro i hi
  exact h i (List.mem_range.mp hi)

theorem writeBytes_read (bs : List Char) :
    ∀ buf pos, readBytes (writeBytes buf pos bs) pos bs.length = bs := by
  induction bs with
  | nil => intro buf pos; rfl
  | cons b bs ih =>
    intro buf pos
    show readBytes (writeBytes (fun j => if j = pos then b else buf j) (pos + 1) bs)
      pos (bs.length + 1) = b :: bs
    rw [readBytes_succ]
    rw [writeBytes_lt bs _ _ _ (by omega), ih]
    simp

theorem copyLoop_count (a : List (List Char)) :
    ∀ buf p c, (copyLoop buf p c a).2 = c + (sizeLoop a).2 := by
  induction a with
  | nil => intro buf p c; simp [copyLoop, sizeLoop]
  | cons s rest ih =>
    intro buf p c
    show (copyLoop (writeBytes buf p (cstr s)) (p + (s.length + 1))
      (c + (s.length + 1)) rest).2 = c + (sizeLoop (s :: rest)).2
    rw [ih]
    simp [sizeLoop]
    omega

theorem copyLoop_lt (a : List (List Char)) :
    ∀ buf p c i, i < p → (copyLoop buf p c a).1 i = buf i := by
  induction a with
  | nil => intro buf p c i _; rfl
  | cons s rest ih =>
    intro buf p c i h
    show (copyLoop (writeBytes buf p (cstr s)) (p + (s.length + 1))
      (c + (s.length + 1)) rest).1 i = buf i
    rw [ih _ _ _ _ (by omega)]
    exact writeBytes_lt (cstr s) buf p i h

theorem copyLoop_read (a : List (List Char)) :
    ∀ buf p c, readBytes (copyLoop buf p c a).1 p (sizeLoop a).2 = (a.map cstr).flatten := by
  induction a with
  | nil => intro buf p c; rfl
  | cons s rest ih =>
    intro buf p c
    have hsz : (sizeLoop (s :: rest)).2 = (s.length + 1) + (sizeLoop rest).2 := by
      simp [sizeLoop]; omega
    rw [hsz, readBytes_add]
    simp only [copyLoop]
    have h1 : readBytes (copyLoop (writeBytes buf p (cstr s)) (p + (s.length + 1))
        (c + (s.length + 1)) rest).1 p (s.length + 1) = cstr s := by
      rw [readBytes_congr _ (writeBytes buf p (cstr s)) p (s.length + 1)
        (fun i hi => copyLoop_lt rest _ _ _ _ (by omega))]
      have := writeBytes_read (cstr s) buf p
      rwa [cstr_length] at this
    rw [h1, ih]
    simp

/-- C9: `copystrings(buf, offset, arg)` lays down each string of `arg`
including its NUL contiguously at `offset` and returns `offset + nbytes`
where `nbytes` is exactly the byte count `arraysize` computes; for
`arg == NULL`, `copystrings` returns `offset` with the buffer untouched and
`arraysize` reports zero elements and zero bytes. -/
theorem C9_copystrings_arraysize (buf : Nat → Char) (offset : Nat)
    (arg : Option (List (List Char))) :
    (copystrings buf offset arg).2 = offset + (arraysize arg).2 ∧
    readBytes (copystrings buf offset arg).1 offset (arraysize arg).2 = cstrConcat arg ∧
    copystrings buf offset none = (buf, offset) ∧
    arraysize none = (0, 0) := by
  refine ⟨?_, ?_, rfl, rfl⟩
  · cases arg with
    | none => simp [copystrings, arraysize]
    | some a =>
      show offset + (copyLoop buf offset 0 a).2 = offset + (sizeLoop a).2
      rw [copyLoop_count]
      omega
  · cases arg with
    | none => rfl
    | some a =>
      show readBytes (copyLoop buf offset 0 a).1 offset (sizeLoop a).2 = (a.map cstr).flatten
      exact copyLoop_read a buf offset 0

/-! ## PATH splitting lemmas -/

theorem strcspn_no_colon (s : List Char) (h : ':' ∉ s) : strcspnColon s = s.length := by
  induction s with
  | nil => rfl
  | cons c ss ih =>
    have hc : c ≠ ':' := fun e => h (by simp [e])
    have hss : ':' ∉ ss := fun hm => h (List.mem_cons_of_mem _ hm)
    simp [strcspnColon, hc, ih hss]

theorem strcspn_append (q r : List Char) (h : ':' ∉ q) :
    strcspnColon (q ++ ':' :: r) = q.length := by
  induction q with
  | nil => simp [strcspnColon]
  | cons c qq ih =>
    have hc : c ≠ ':' := fun e => h (by simp [e])
    have hqq : ':' ∉ qq := fun hm => h (List.mem_cons_of_mem _ hm)
    simp [strcspnColon, hc, ih hqq]

theorem cnt_append (q r : List Char) (c : Char) :
    countOccurrences (q ++ r) c = countOccurrences q c + countOccurrences r c := by
  induction q with
  | nil => simp [countOccurrences]
  | cons x qq ih =>
    simp [countOccurrences, ih]
    omega

theorem cnt_zero (q : List Char) (c : Char) (h : c ∉ q) : countOccurrences q c = 0 := by
  induction q with
  | nil => rfl
  | cons x qq ih =>
    have hx : x ≠ c := fun e => h (by simp [e])
    have hqq : c ∉ qq := fun hm => h (List.mem_cons_of_mem _ hm)
    simp [countOccurrences, hx, ih hqq]

theorem drop_append_cons (q r : List Char) :
    (q ++ ':' :: r).drop (q.length + 1) = r := by
  induction q with
  | nil => simp
  | cons x qq ih => simp [ih]

theorem take_append_cons (q r : List Char) :
    (q ++ ':' :: r).take q.length = q := by
  induction q with
  | nil => simp
  | cons x qq ih => simp [ih]

theorem colon_dichotomy (s : List Char) :
    ':' ∉ s ∨ ∃ q r, s = q ++ ':' :: r ∧ ':' ∉ q := by
  induction s with
  | nil => left; simp
  | cons c ss ih =>
    by_cases hc : c = ':'
    · right
      exact ⟨[], ss, by rw [hc]; rfl, by simp⟩
    · cases ih with
      | inl h =>
        left
        intro hm
        rcases List.mem_cons.mp hm with e | hm2
        · exact hc e.symm
        · exact h hm2
      | inr h =>
        obtain ⟨q, r, rfl, hq⟩ := h
        right
        refine ⟨c :: q, r, rfl, ?_⟩
        intro hm
        rcases List.mem_cons.mp hm with e | h2
        · exact hc e.symm
        · exact hq h2

theorem splitAtColons_ne_nil (s : List Char) : splitAtColons s ≠ [] := by
  induction s with
  | nil => simp [splitAtColons]
  | cons c ss ih =>
    cases h : splitAtColons ss with
    | nil => exact absurd h ih
    | cons a t =>
      by_cases hc : c = ':'
      · simp [splitAtColons, hc]
      · simp [splitAtColons, hc, h]

theorem splitAtColons_no_colon (s : List Char) (h : ':' ∉ s) : splitAtColons s = [s] := by
  induction s with
  | nil => rfl
  | cons c ss ih =>
    have hc : c ≠ ':' := fun e => h (by simp [e])
    have hss : ':' ∉ ss := fun hm => h (List.mem_cons_of_mem _ hm)
    simp [splitAtColons, hc, ih hss]

theorem splitAtColons_append (q r : List Char) (h : ':' ∉ q) :
    splitAtColons (q ++ ':' :: r) = q :: splitAtColons r := by
  induction q with
  | nil => simp [splitAtColons]
  | cons c qq ih =>
    have hc : c ≠ ':' := fun e => h (by simp [e])
    have hqq : ':' ∉ qq := fun hm => h (List.mem_cons_of_mem _ hm)
    simp [splitAtColons, hc, ih hqq]

theorem splitAtColons_length (s : List Char) :
    (splitAtColons s).length = countOccurrences s ':' + 1 := by
  induction s with
  | nil => rfl
  | cons c ss ih =>
    by_cases hc : c = ':'
    · simp [splitAtColons, countOccurrences, hc, ih]
      omega
    · cases h : splitAtColons ss with
      | nil => exact absurd h (splitAtColons_ne_nil ss)
      | cons a t =>
        rw [h] at ih
        simp [splitAtColons, countOccurrences, hc, h]
        simp at ih
        omega


theorem pathvLoop_succ (n : Nat) (p : List Char) :
    pathvLoop (n + 1) p =
      (if strcspnColon p = 0 then [ '.' ] else p.take (strcspnColon p)) ::
        pathvLoop n (p.drop (strcspnColon p + 1)) := rfl

theorem pathvLoop_eq_split (n : Nat) :
    ∀ s : List Char, s.length ≤ n →
      pathvLoop (countOccurrences s ':' + 1) s = (splitAtColons s).map dotIfEmpty := by
  induction n with
  | zero =>
    intro s hs
    have hnil : s = [] := List.length_eq_zero.mp (Nat.le_zero.mp hs)
    subst hnil
    rfl
  | succ n ih =>
    intro s hs
    rcases colon_dichotomy s with hno | ⟨q, r, rfl, hq⟩
    · rw [cnt_zero s ':' hno, splitAtColons_no_colon s hno, pathvLoop_succ]
      rw [strcspn_no_colon s hno]
      rcases eq_or_ne s [] with rfl | hne
      · simp [dotIfEmpty, pathvLoop]
      · rw [if_neg (fun h0 => hne (List.length_eq_zero.mp h0)), List.take_length]
        simp [pathvLoop, dotIfEmpty, hne]
    · have hcnt : countOccurrences (q ++ ':' :: r) ':' = countOccurrences r ':' + 1 := by
        rw [cnt_append, cnt_zero q ':' hq]
        simp [countOccurrences]
        omega
      rw [hcnt, splitAtColons_append q r hq, pathvLoop_succ]
      rw [strcspn_append q r hq, drop_append_cons]
      have hlen : r.length ≤ n := by
        have h2 := hs
        simp [List.length_append] at h2
        omega
      rw [ih r hlen, List.map_cons]
      congr 1
      rcases eq_or_ne q [] with rfl | hne
      · simp [dotIfEmpty]
      · rw [if_neg (fun h0 => hne (List.length_eq_zero.mp h0)), take_append_cons,
          dotIfEmpty, if_neg hne]

/-- C10: `effectivePathv` splits the PATH value at every `:` in order into
exactly `countOccurrences(path, c) + 1` components, replacing each empty
component by `"."`; with PATH unset the default `":/bin:/usr/bin"` yields
the components `"."`, `"/bin"`, `"/usr/bin"`. (The C array's trailing NULL
slot is the end of the Lean list.) -/
theorem C10_effectivePathv (path : List Char) :
    (effectivePathv (some path)).length = countOccurrences path ':' + 1 ∧
    effectivePathv (some path) = (splitAtColons path).map dotIfEmpty ∧
    effectivePathv none = [[ '.' ], ("/bin").toList, ("/usr/bin").toList] := by
  have hmain : effectivePathv (some path) = (splitAtColons path).map dotIfEmpty :=
    pathvLoop_eq_split path.length path (le_refl _)
  refine ⟨?_, hmain, ?_⟩
  · rw [hmain, List.length_map, splitAtColons_length]
  · decide

/-! ## Root-map completeness -/

theorem mem_rootMapFor (s : List LiveValue) (l : Nat) :
    l ∈ rootMapFor s ↔ ∃ v, v ∈ s ∧ v.isRef = true ∧ v.physLoc = some l := by
  simp only [rootMapFor, List.mem_filterMap]
  constructor
  · rintro ⟨v, hv, he⟩
    by_cases hr : v.isRef = true
    · rw [if_pos hr] at he
      exact ⟨v, hv, hr, he⟩
    · rw [if_neg hr] at he
      cases he
  · rintro ⟨v, hv, hr, he⟩
    refine ⟨v, hv, ?_⟩
    rw [if_pos hr]
    exact he

/-- C1: `BuildOopMaps` makes exactly one root map per safepoint; when the
live reference locations at a safepoint are distinct, each physical
location holding a live reference gets exactly one root-map entry, and
every entry is backed by such a value — so values with no physical
location (scalar-replaced reconstruction-only values) contribute none. -/
theorem C1_root_map_completeness (sps : List (List LiveValue)) :
    (BuildOopMaps sps).length = sps.length ∧
    ∀ s, s ∈ sps → (rootMapFor s).Nodup →
      (∀ l v, v ∈ s → v.isRef = true → v.physLoc = some l →
        (rootMapFor s).count l = 1) ∧
      (∀ l, l ∈ rootMapFor s → ∃ v, v ∈ s ∧ v.isRef = true ∧ v.physLoc = some l) := by
  constructor
  · simp [BuildOopMaps]
  · intro s _ hnd
    constructor
    · intro l v hv hr he
      exact List.count_eq_one_of_mem hnd ((mem_rootMapFor s l).mpr ⟨v, hv, hr, he⟩)
    · intro l hl
      exact (mem_rootMapFor s l).mp hl

/-- Witness for C1 at a concrete safepoint list: one safepoint with a live
reference in location 5 and a scalar-replaced value with no location. -/
theorem C1_root_map_completeness_witness :
    (rootMapFor [⟨true, some 5⟩, ⟨true, none⟩] : List Nat).count 5 = 1 :=
  ((C1_root_map_completeness [[⟨true, some 5⟩, ⟨true, none⟩]]).2
    [⟨true, some 5⟩, ⟨true, none⟩] (by simp) (by decide)).1 5 ⟨true, some 5⟩
    (by simp) rfl rfl

/-! ## Branch-fixup termination -/

/-- C2: each `shorten_branches` pass only flips long encodings to short
(never the reverse), and starting from the all-long state the fixed point
is reached within `b` passes — afterwards a pass makes no flips. -/
theorem C2_shorten_branches_terminates (b : Nat)
    (shortOK : (Fin b → Bool) → Fin b → Bool) :
    (∀ st i, st i = true → shortenPass shortOK st i = true) ∧
    shortenPass shortOK ((shortenPass shortOK)^[b] allLong) =
      (shortenPass shortOK)^[b] allLong := by
  constructor
  · intro st i h
    simp [shortenPass, h]
  · set f := shortenPass shortOK with hf
    have hsub : ∀ st : Fin b → Bool, shortSet st ⊆ shortSet (f st) := by
      intro st i hi
      simp only [shortSet, Finset.mem_filter] at hi ⊢
      refine ⟨hi.1, ?_⟩
      rw [hf]
      simp [shortenPass, hi.2]
    have hext : ∀ st st' : Fin b → Bool, shortSet st = shortSet st' → st = st' := by
      intro st st' h
      funext i
      have hiff : st i = true ↔ st' i = true := by
        constructor
        · intro hi
          have : i ∈ shortSet st' := by
            rw [← h]
            simp [shortSet, hi]
          simpa [shortSet] using this
        · intro hi
          have : i ∈ shortSet st := by
            rw [h]
            simp [shortSet, hi]
          simpa [shortSet] using this
      cases hst : st i <;> cases hst2 : st' i <;> simp_all
    by_contra hcon
    have hnofix : ∀ k, k ≤ b → f (f^[k] allLong) ≠ f^[k] allLong := by
      intro k hk heq
      apply hcon
      have hbk : f^[b] allLong = f^[k] allLong := by
        have h5 : f^[b] allLong = f^[b - k + k] allLong := by
          rw [Nat.sub_add_cancel hk]
        rw [h5, Function.iterate_add_apply]
        exact Function.iterate_fixed heq (b - k)
      rw [hbk]
      exact heq
    have hcard : ∀ k, k ≤ b + 1 → k ≤ (shortSet (f^[k] allLong)).card := by
      intro k
      induction k with
      | zero => intro _; exact Nat.zero_le _
      | succ k ihk =>
        intro hk1
        have hk : k ≤ b := by omega
        have hne : f^[k] allLong ≠ f^[k + 1] allLong := by
          intro he
          apply hnofix k hk
          rw [Function.iterate_succ_apply'] at he
          exact he.symm
        have hss : shortSet (f^[k] allLong) ⊂ shortSet (f^[k + 1] allLong) := by
          rw [Finset.ssubset_iff_subset_ne]
          constructor
          · rw [Function.iterate_succ_apply']
            exact hsub _
          · intro he
            exact hne (hext _ _ he)
        have hlt := Finset.card_lt_card hss
        have hih := ihk (by omega)
        omega
    have h1 := hcard (b + 1) (le_refl _)
    have h2 : (shortSet (f^[b + 1] allLong)).card ≤ b := by
      have hle := Finset.card_le_univ (shortSet (f^[b + 1] allLong))
      simpa using hle
    omega

/-- Witness for C2: one branch, always in short range — flipping preserves
short encodings and the state after one pass is a fixed point. -/
theorem C2_shorten_branches_witness :
    shortenPass (fun _ _ => true) (fun _ => true) ⟨0, Nat.one_pos⟩ = true ∧
    shortenPass (fun _ _ => true)
        ((shortenPass (fun (_ : Fin 1 → Bool) (_ : Fin 1) => true))^[1] allLong) =
      (shortenPass (fun (_ : Fin 1 → Bool) (_ : Fin 1) => true))^[1] allLong :=
  ⟨(C2_shorten_branches_terminates 1 (fun _ _ => true)).1 (fun _ => true) ⟨0, Nat.one_pos⟩ rfl,
   (C2_shorten_branches_terminates 1 (fun _ _ => true)).2⟩

/-! ## Offset prefix sums -/

theorem startsLoop_length (sizes : List Nat) :
    ∀ cur, (startsLoop cur sizes).length = sizes.length := by
  induction sizes with
  | nil => intro cur; rfl
  | cons s rest ih =>
    intro cur
    show (cur :: startsLoop (cur + s) rest).length = rest.length + 1
    simp [ih]

theorem startsLoop_get (sizes : List Nat) :
    ∀ cur i, ∀ h : i < (startsLoop cur sizes).length,
      (startsLoop cur sizes).get ⟨i, h⟩ = cur + (sizes.take i).sum := by
  induction sizes with
  | nil =>
    intro cur i h
    simp [startsLoop] at h
  | cons s rest ih =>
    intro cur i h
    cases i with
    | zero => simp [startsLoop]
    | succ i =>
      show (startsLoop (cur + s) rest).get ⟨i, _⟩ = cur + ((s :: rest).take (i + 1)).sum
      rw [ih]
      simp [List.sum_cons]
      omega

theorem emitBlock_length (blk : List MInstr) : (emitBlock blk).length = blockSize blk := by
  simp only [emitBlock, blockSize, List.length_flatten, List.map_map]
  rfl

theorem fill_buffer_length (blks : List (List MInstr)) :
    (fill_buffer blks).length = (blks.map blockSize).sum := by
  simp only [fill_buffer, List.length_flatten, List.map_map]
  congr 1
  apply List.map_congr_left
  intro blk _
  exact emitBlock_length blk

/-- C3: after the branch-fixup fixed point, every block's start offset in
`blk_starts` is the sum of the sizes of all preceding blocks and equals the
number of bytes actually emitted before it; offsets are monotonically
non-decreasing in layout order; and every instruction's counted size is the
length of its actually emitted encoding. -/
theorem C3_offsets_prefix_sums (blks : List (List MInstr)) :
    (∀ i, ∀ h : i < (blk_starts blks).length,
      (blk_starts blks).get ⟨i, h⟩ = ((blks.take i).map blockSize).sum ∧
      (blk_starts blks).get ⟨i, h⟩ = (fill_buffer (blks.take i)).length) ∧
    (∀ i j, ∀ hi : i < (blk_starts blks).length, ∀ hj : j < (blk_starts blks).length,
      i ≤ j → (blk_starts blks).get ⟨i, hi⟩ ≤ (blk_starts blks).get ⟨j, hj⟩) ∧
    (∀ n : MInstr, instrSize n = n.enc.length) := by
  have hget : ∀ i, ∀ h : i < (blk_starts blks).length,
      (blk_starts blks).get ⟨i, h⟩ = ((blks.map blockSize).take i).sum := by
    intro i h
    have h2 := startsLoop_get (blks.map blockSize) 0 i h
    simpa [blk_starts, computeStarts] using h2
  refine ⟨?_, ?_, fun n => rfl⟩
  · intro i h
    constructor
    · rw [hget i h, List.map_take]
    · rw [hget i h, fill_buffer_length, List.map_take]
  · intro i j hi hj hij
    rw [hget i hi, hget j hj]
    have hsplit : ((blks.map blockSize).take j).sum =
        (((blks.map blockSize).take j).take i).sum +
        (((blks.map blockSize).take j).drop i).sum :=
      (List.sum_take_add_sum_drop _ _).symm
    rw [List.take_take, Nat.min_def, if_pos hij] at hsplit
    omega

/-- Witness for C3: a two-block unit — the second block's start offset is
the first block's size, and it equals the bytes emitted for block one. -/
theorem C3_offsets_prefix_sums_witness :
    (blk_starts [[⟨[0, 1]⟩], [⟨[2]⟩]]).get ⟨1, by decide⟩ =
      ((([[⟨[0, 1]⟩], [⟨[2]⟩]] : List (List MInstr)).take 1).map blockSize).sum :=
  ((C3_offsets_prefix_sums [[⟨[0, 1]⟩], [⟨[2]⟩]]).1 1 (by decide)).1

/-! ## Object-value deduplication -/

theorem sv_some_mem (objs : List OV) (i : Nat) :
    ∀ sv, sv_for_node_id objs i = some sv → sv ∈ objs ∧ sv.id = i := by
  induction objs with
  | nil => intro sv h; cases h
  | cons ov rest ih =>
    intro sv h
    by_cases hid : ov.id = i
    · rw [sv_for_node_id, if_pos hid] at h
      cases h
      exact ⟨List.mem_cons_self _ _, hid⟩
    · rw [sv_for_node_id, if_neg hid] at h
      obtain ⟨hm, he⟩ := ih sv h
      exact ⟨List.mem_cons_of_mem _ hm, he⟩

theorem sv_none_iff (objs : List OV) (i : Nat) :
    sv_for_node_id objs i = none ↔ ∀ ov, ov ∈ objs → ov.id ≠ i := by
  induction objs with
  | nil => simp [sv_for_node_id]
  | cons ov rest ih =>
    by_cases hid : ov.id = i
    · rw [sv_for_node_id, if_pos hid]
      simp [hid]
    · rw [sv_for_node_id, if_neg hid]
      rw [ih]
      constructor
      · intro h ov2 hm
        rcases List.mem_cons.mp hm with rfl | hm2
        · exact hid
        · exact h ov2 hm2
      · intro h ov2 hm
        exact h ov2 (List.mem_cons_of_mem _ hm)

theorem sv_none_iff_ids (objs : List OV) (i : Nat) :
    sv_for_node_id objs i = none ↔ i ∉ objs.map OV.id := by
  rw [sv_none_iff]
  simp only [List.mem_map]
  constructor
  · rintro h ⟨ov, hm, he⟩
    exact h ov hm he
  · intro h ov hm he
    exact h ⟨ov, hm, he⟩

theorem fillRef_registered (objs : List OV) (r : Nat × Nat)
    (h : sv_for_node_id objs r.1 ≠ none) : fillRef objs r = objs := by
  rw [fillRef]
  cases hs : sv_for_node_id objs r.1 with
  | none => exact absurd hs h
  | some sv => rfl

theorem foldl_fillRef_ids (refs : List (Nat × Nat)) :
    ∀ objs : List OV, (objs.map OV.id).Nodup →
      ((refs.foldl fillRef objs).map OV.id).Nodup ∧
      ∀ i, i ∈ (refs.foldl fillRef objs).map OV.id ↔
        i ∈ objs.map OV.id ∨ i ∈ refs.map Prod.fst := by
  induction refs with
  | nil =>
    intro objs hnd
    refine ⟨hnd, fun i => ?_⟩
    simp
  | cons r rest ih =>
    intro objs hnd
    have hstep : ((fillRef objs r).map OV.id).Nodup ∧
        ∀ i, i ∈ (fillRef objs r).map OV.id ↔ i ∈ objs.map OV.id ∨ i = r.1 := by
      rw [fillRef]
      cases hs : sv_for_node_id objs r.1 with
      | some sv =>
        have hmem := sv_some_mem objs r.1 sv hs
        refine ⟨hnd, fun i => ?_⟩
        constructor
        · intro h; exact Or.inl h
        · rintro (h | rfl)
          · exact h
          · exact List.mem_map.mpr ⟨sv, hmem.1, hmem.2⟩
      | none =>
        have hni := (sv_none_iff_ids objs r.1).mp hs
        constructor
        · rw [set_sv_for_object_node]
          simp only [List.map_append, List.map_cons, List.map_nil]
          rw [List.nodup_append]
          exact ⟨hnd, List.nodup_singleton _, by simpa using fun h => hni h⟩
        · intro i
          rw [set_sv_for_object_node]
          simp only [List.map_append, List.map_cons, List.map_nil, List.mem_append,
            List.mem_singleton]
    have hrec := ih (fillRef objs r) hstep.1
    constructor
    · rw [List.foldl_cons]
      exact hrec.1
    · intro i
      rw [List.foldl_cons, hrec.2 i, hstep.2 i]
      simp only [List.map_cons, List.mem_cons]
      tauto

/-- C4: within one unit the registry holds exactly one descriptor per
referenced object id (`count` on ids is 1 for referenced ids and 0
otherwise); `sv_for_node_id` returns the registered descriptor itself (a
member of the registry with that id) when present and `none` exactly when
no descriptor with that id exists; re-encountering a registered id leaves
the registry unchanged (lookup, not re-serialization). -/
theorem C4_object_dedup (refs : List (Nat × Nat)) (i : Nat) :
    (((registryAfter refs).map OV.id).count i
        = if i ∈ refs.map Prod.fst then 1 else 0) ∧
    (∀ objs sv, sv_for_node_id objs i = some sv → sv ∈ objs ∧ sv.id = i) ∧
    (∀ objs : List OV, sv_for_node_id objs i = none ↔ ∀ ov, ov ∈ objs → ov.id ≠ i) ∧
    (∀ objs r, sv_for_node_id objs (r : Nat × Nat).1 ≠ none → fillRef objs r = objs) := by
  refine ⟨?_, fun objs sv => sv_some_mem objs i sv, fun objs => sv_none_iff objs i,
    fun objs r => fillRef_registered objs r⟩
  have h := foldl_fillRef_ids refs [] (by simp)
  rw [registryAfter]
  by_cases hm : i ∈ refs.map Prod.fst
  · rw [if_pos hm]
    exact List.count_eq_one_of_mem h.1 ((h.2 i).mpr (Or.inr hm))
  · rw [if_neg hm]
    rw [List.count_eq_zero]
    intro hmem
    rcases (h.2 i).mp hmem with h0 | h1
    · simp at h0
    · exact hm h1

/-- Witness for C4: the id 3 referenced twice is registered once, the
lookup returns the registered descriptor, and the second reference leaves
the registry unchanged. -/
theorem C4_object_dedup_witness :
    ((registryAfter [(3, 7), (3, 9)]).map OV.id).count 3
        = (if 3 ∈ ([(3, 7), (3, 9)] : List (Nat × Nat)).map Prod.fst then 1 else 0) ∧
    ((⟨3, 7⟩ : OV) ∈ [(⟨3, 7⟩ : OV)] ∧ (⟨3, 7⟩ : OV).id = 3) ∧
    fillRef [(⟨3, 7⟩ : OV)] (3, 9) = [(⟨3, 7⟩ : OV)] :=
  ⟨(C4_object_dedup [(3, 7), (3, 9)] 3).1,
   (C4_object_dedup [(3, 7), (3, 9)] 3).2.1 [⟨3, 7⟩] ⟨3, 7⟩ rfl,
   (C4_object_dedup [(3, 7), (3, 9)] 3).2.2.2 [⟨3, 7⟩] (3, 9) (by decide)⟩

/-! ## Constant-pool interning -/

theorem findIdx2_none_iff (es : List (Int × Nat)) (v : Int) (t : Nat) :
    findIdx2 es v t = none ↔ (v, t) ∉ es := by
  induction es with
  | nil => simp [findIdx2]
  | cons e rest ih =>
    by_cases he : e = (v, t)
    · rw [findIdx2, if_pos he]
      simp [he]
    · rw [findIdx2, if_neg he]
      constructor
      · intro h hm
        have hr : findIdx2 rest v t = none := by
          cases hx : findIdx2 rest v t with
          | none => rfl
          | some j => rw [hx] at h; cases h
        rcases List.mem_cons.mp hm with hm1 | hm2
        · exact he hm1.symm
        · exact (ih.mp hr) hm2
      · intro h
        have hr : (v, t) ∉ rest := fun hm => h (List.mem_cons_of_mem _ hm)
        rw [ih.mpr hr]
        rfl

theorem findIdx2_append_self (es : List (Int × Nat)) (v : Int) (t : Nat)
    (h : findIdx2 es v t = none) :
    findIdx2 (es ++ [(v, t)]) v t = some es.length := by
  induction es with
  | nil => simp [findIdx2]
  | cons e rest ih =>
    by_cases he : e = (v, t)
    · rw [findIdx2, if_pos he] at h
      cases h
    · rw [findIdx2, if_neg he] at h
      have hr : findIdx2 rest v t = none := by
        cases hx : findIdx2 rest v t with
        | none => rfl
        | some j => rw [hx] at h; cases h
      rw [List.cons_append, findIdx2, if_neg he, ih hr]
      rfl

theorem intern_nodup (es : List (Int × Nat)) (v : Int) (t : Nat) (h : es.Nodup) :
    ((intern es v t).1).Nodup := by
  rw [intern]
  cases hf : findIdx2 es v t with
  | some i => exact h
  | none =>
    have hnm := (findIdx2_none_iff es v t).mp hf
    simp [List.nodup_append, h, hnm]

theorem internAll_aux_nodup (ps : List (Int × Nat)) :
    ∀ es : List (Int × Nat), es.Nodup → (ps.foldl (fun es p => (intern es p.1 p.2).1) es).Nodup := by
  induction ps with
  | nil => intro es h; exact h
  | cons p rest ih =>
    intro es h
    rw [List.foldl_cons]
    exact ih _ (intern_nodup es p.1 p.2 h)

theorem offLoop_take (al sz : Nat → Nat) (es : List (Int × Nat)) :
    ∀ cur (more : List (Int × Nat)),
      (offLoop al sz cur (es ++ more)).take es.length = offLoop al sz cur es := by
  induction es with
  | nil => intro cur more; rfl
  | cons e rest ih =>
    intro cur more
    show (alignUp cur (al e.2) :: offLoop al sz (alignUp cur (al e.2) + sz e.2) (rest ++ more)).take
        (rest.length + 1) = alignUp cur (al e.2) :: offLoop al sz (alignUp cur (al e.2) + sz e.2) rest
    rw [List.take_succ_cons, ih]

/-- C5: interning is idempotent — re-interning an already interned
`(value, type)` pair returns the same pool and the same offset index; a
pool built by interning from empty never holds two equal entries; interning
only appends, and the offsets assigned at close to existing entries are
unchanged by any later extension of the pool. -/
theorem C5_constant_pool_idempotent (es : List (Int × Nat)) (v : Int) (t : Nat)
    (al sz : Nat → Nat) (ps : List (Int × Nat)) :
    intern (intern es v t).1 v t = ((intern es v t).1, (intern es v t).2) ∧
    (internAll ps).Nodup ∧
    (∀ more : List (Int × Nat),
      (closeOffsets al sz (es ++ more)).take es.length = closeOffsets al sz es) ∧
    (∃ more, (intern es v t).1 = es ++ more) := by
  refine ⟨?_, internAll_aux_nodup ps [] (List.nodup_nil), fun more => offLoop_take al sz es 0 more, ?_⟩
  · cases hf : findIdx2 es v t with
    | some i =>
      have h1 : intern es v t = (es, i) := by rw [intern, hf]
      rw [h1]
      show intern es v t = (es, i)
      exact h1
    | none =>
      have h1 : intern es v t = (es ++ [(v, t)], es.length) := by rw [intern, hf]
      rw [h1]
      show intern (es ++ [(v, t)]) v t = (es ++ [(v, t)], es.length)
      rw [intern, findIdx2_append_self es v t hf]
  · cases hf : findIdx2 es v t with
    | some i =>
      refine ⟨[], ?_⟩
      rw [intern, hf]
      simp
    | none =>
      refine ⟨[(v, t)], ?_⟩
      rw [intern, hf]

/-! ## Trial emission is side-effect-free -/

theorem scratch_emit_shared (st : OutState) (n : EmitInstr) :
    (scratch_emit_size st n).1.shared = st.shared ∧
    (scratch_emit_size st n).1.inScratchEmitSize = st.inScratchEmitSize ∧
    (scratch_emit_size st n).2 = n.bytes.length := by
  simp only [scratch_emit_size, emitNode, set_frame_complete, currentOffset]
  by_cases hm : n.marksFrame <;> simp [hm]

theorem emitNode_real (st : OutState) (n : EmitInstr) (h : st.inScratchEmitSize = false) :
    (emitNode st n).shared = emitShared st.shared n ∧
    (emitNode st n).inScratchEmitSize = false := by
  simp only [emitNode, set_frame_complete, currentOffset, emitShared, h]
  by_cases hm : n.marksFrame <;> simp [hm]

theorem emitShared_codeOffset (sh : SharedState) (n : EmitInstr) :
    (emitShared sh n).codeOffset = sh.codeOffset + n.bytes.length := by
  simp only [emitShared]
  by_cases hm : n.marksFrame <;> simp [hm]

theorem runOps_filter_real (ops : List EmitOp) :
    ∀ st st' : OutState, st.shared = st'.shared →
      st.inScratchEmitSize = false → st'.inScratchEmitSize = false →
      (runOps st ops).shared = (runOps st' (ops.filter isReal)).shared := by
  induction ops with
  | nil =>
    intro st st' h _ _
    exact h
  | cons op rest ih =>
    intro st st' h hf hf2
    cases op with
    | real n =>
      have h1 := emitNode_real st n hf
      have h2 := emitNode_real st' n hf2
      have hsh : (emitNode st n).shared = (emitNode st' n).shared := by
        rw [h1.1, h2.1, h]
      have hrec := ih (emitNode st n) (emitNode st' n) hsh h1.2 h2.2
      simpa [runOps, runOp, isReal, List.filter_cons] using hrec
    | trial n =>
      have h1 := scratch_emit_shared st n
      have hrec := ih ((scratch_emit_size st n).1) st'
        (by rw [h1.1]; exact h) (by rw [h1.2.1]; exact hf) hf2
      simpa [runOps, runOp, isReal, List.filter_cons] using hrec

/-- C6: `scratch_emit_size` reports exactly the size a real emission of `n`
would add to the code cursor while leaving every shared component — handler
table, implicit-check table, oop maps, constant pool, code bytes, cursor
and frame-complete offset — unchanged; and any interleaving of trial calls
with real emission leaves the shared state exactly as the real emissions
alone would. -/
theorem C6_scratch_emit_size_pure (st : OutState) (n : EmitInstr) (ops : List EmitOp)
    (h : st.inScratchEmitSize = false) :
    (scratch_emit_size st n).1.shared = st.shared ∧
    (scratch_emit_size st n).2 = n.bytes.length ∧
    (emitNode st n).shared.codeOffset = st.shared.codeOffset + (scratch_emit_size st n).2 ∧
    (runOps st ops).shared = (runOps st (ops.filter isReal)).shared := by
  refine ⟨(scratch_emit_shared st n).1, (scratch_emit_shared st n).2.2, ?_, ?_⟩
  · rw [(emitNode_real st n h).1, emitShared_codeOffset, (scratch_emit_shared st n).2.2]
  · exact runOps_filter_real ops st st rfl h h

/-- Witness for C6: a unit with empty tables; a trial call for a two-byte
frame-marking instruction leaves the shared state untouched and reports
size 2, also when interleaved with a real emission. -/
theorem C6_scratch_emit_size_pure_witness :
    (scratch_emit_size ⟨⟨[], [], [], [], [], 0, none⟩, [], false⟩ ⟨[1, 2], true⟩).1.shared =
      (⟨⟨[], [], [], [], [], 0, none⟩, [], false⟩ : OutState).shared ∧
    (scratch_emit_size ⟨⟨[], [], [], [], [], 0, none⟩, [], false⟩ ⟨[1, 2], true⟩).2 =
      ([1, 2] : List Nat).length ∧
    (runOps ⟨⟨[], [], [], [], [], 0, none⟩, [], false⟩
        [EmitOp.trial ⟨[1, 2], true⟩, EmitOp.real ⟨[3], false⟩]).shared =
      (runOps ⟨⟨[], [], [], [], [], 0, none⟩, [], false⟩
        ([EmitOp.trial ⟨[1, 2], true⟩, EmitOp.real ⟨[3], false⟩].filter isReal)).shared :=
  ⟨(C6_scratch_emit_size_pure ⟨⟨[], [], [], [], [], 0, none⟩, [], false⟩ ⟨[1, 2], true⟩ [] rfl).1,
   (C6_scratch_emit_size_pure ⟨⟨[], [], [], [], [], 0, none⟩, [], false⟩ ⟨[1, 2], true⟩ [] rfl).2.1,
   (C6_scratch_emit_size_pure ⟨⟨[], [], [], [], [], 0, none⟩, [], false⟩ ⟨[1, 2], true⟩
      [EmitOp.trial ⟨[1, 2], true⟩, EmitOp.real ⟨[3], false⟩] rfl).2.2.2⟩

/-! ## Retry policy and bundling -/

/-- C7: the Output Driver makes at most two emission attempts; a first
overflow causes exactly one retry; a second overflow is a bailout of the
unit (the result type has no fatal outcome); and an artifact is installed
only when the actual size fits some attempted estimate — never partial. -/
theorem C7_one_retry_then_bailout (actual est est2 : Nat) :
    (outputDriver actual est est2).2 ≤ 2 ∧
    (est < actual → (outputDriver actual est est2).2 = 2) ∧
    (est < actual → est2 < actual →
      outputDriver actual est est2 = (DriverResult.bailout, 2)) ∧
    (∀ s, (outputDriver actual est est2).1 = DriverResult.installed s →
      s = actual ∧ (actual ≤ est ∨ actual ≤ est2)) := by
  unfold outputDriver
  split_ifs with h1 h2
  · refine ⟨by omega, fun hc => absurd h1 (by omega), fun hc _ => absurd h1 (by omega), ?_⟩
    intro s hs
    simp only [DriverResult.installed.injEq] at hs
    exact ⟨hs.symm, Or.inl h1⟩
  · refine ⟨by omega, fun _ => rfl, fun _ hc => absurd h2 (by omega), ?_⟩
    intro s hs
    simp only [DriverResult.installed.injEq] at hs
    exact ⟨hs.symm, Or.inr h2⟩
  · refine ⟨by omega, fun _ => rfl, fun _ _ => rfl, ?_⟩
    intro s hs
    cases hs

/-- Witness for C7: actual size 10 against estimates 5 then 7 — one retry,
then bailout with two attempts. -/
theorem C7_one_retry_then_bailout_witness :
    outputDriver 10 5 7 = (DriverResult.bailout, 2) ∧ (outputDriver 10 5 7).2 ≤ 2 :=
  ⟨(C7_one_retry_then_bailout 10 5 7).2.2.1 (by decide) (by decide),
   (C7_one_retry_then_bailout 10 5 7).1⟩

theorem bundleWalk_fst (width : Nat) (l : List SchedInstr) :
    ∀ fill idx, (bundleWalk width l fill idx).map Prod.fst = l := by
  induction l with
  | nil => intro fill idx; rfl
  | cons n rest ih =>
    intro fill idx
    by_cases h : fill + n.resUse ≤ width <;> simp [bundleWalk, h, ih]

/-- C8: `ScheduleAndBundle` attaches bundle metadata one-to-one by a
reverse-program-order walk without reordering: the instruction sequence
after bundling equals the sequence before it. -/
theorem C8_bundling_no_reorder (width : Nat) (blk : List SchedInstr) :
    (ScheduleAndBundle width blk).map Prod.fst = blk ∧
    (ScheduleAndBundle width blk).length = blk.length := by
  have h := bundleWalk_fst width blk.reverse 0 0
  constructor
  · rw [ScheduleAndBundle, List.map_reverse, h, List.reverse_reverse]
  · have h2 := congrArg List.length h
    rw [List.length_map, List.length_reverse] at h2
    rw [ScheduleAndBundle, List.length_reverse]
    exact h2
